import Mathlib

/-!
Shallow embedding of the `gcache` in-process key-value cache (bluvec/gcache).

The repository stores entries in two string-keyed Go maps guarded by one
RWMutex: `persistItems` for never-expiring entries and `volatileItems` for
entries with a TTL.  Go maps are modelled as association lists with unique
keys reachable by construction; `time.Now()` is passed explicitly as a
`nowNs : Int` argument (Unix nanoseconds) at every point where the source
calls it, and `UnixMilli` becomes Euclidean division by 1000000 (floor
division for the post-1970 instants all claims concern).  Each exported
operation of the source holds the store lock for its whole body, so it is
embedded as one atomic state transition.
-/

namespace GCache

/-- Association-list model of a Go `map[string]α`. -/
abbrev SMap (α : Type) := List (String × α)

/-- Lookup in a `map[string]α`: the first binding of the key, if any. -/
def mfind {α : Type} : SMap α → String → Option α
  | [], _ => none
  | (k1, v) :: rest, k => if k1 = k then some v else mfind rest k

/-- Go `delete(m, k)`: remove every binding of `k` (a Go map holds at most one). -/
def merase {α : Type} : SMap α → String → SMap α
  | [], _ => []
  | (k1, v) :: rest, k => if k1 = k then merase rest k else (k1, v) :: merase rest k

/-- Go `m[k] = v`: bind `k` to `v`, dropping any previous binding. -/
def minsert {α : Type} (m : SMap α) (k : String) (v : α) : SMap α :=
  (k, v) :: merase m k

/-- The keys of a `map[string]α`. -/
def mkeys {α : Type} (m : SMap α) : List String :=
  m.map Prod.fst

/-- A Go map never binds the same key twice. -/
def NodupKeys {α : Type} (m : SMap α) : Prop :=
  (mkeys m).Nodup

/-- part_000 (errors.go): `ErrNotExists` and `ErrInvalidType`. -/
inductive Err where
  | notExists
  | invalidType
deriving DecidableEq

/-- Runtime type tags standing for the Go types admitted by `ValType`
(generic.go 5-33).  One representative is kept per kind: a string, a bool,
a 64-bit integer for the `NumType` family, an integer slice for
`SliceType`, and a `map[string]int` for `MapType`; the type-assertion
logic of the source is identical across the members of each family. -/
inductive Ty where
  | str
  | bool
  | int
  | slice
  | map
deriving DecidableEq

/-- A stored value (`Item.Object`, an `interface{}` in the source). -/
inductive Val where
  | vStr (s : String)
  | vBool (b : Bool)
  | vInt (n : Int)
  | vSlice (xs : List Int)
  | vMap (m : SMap Int)
deriving DecidableEq

/-- The runtime type of a stored value, as Go's type assertion sees it. -/
def Val.ty : Val → Ty
  | .vStr _ => .str
  | .vBool _ => .bool
  | .vInt _ => .int
  | .vSlice _ => .slice
  | .vMap _ => .map

/-- part_001: `kNeverExpireMs int64 = math.MaxInt64`. -/
def kNeverExpireMs : Int := 9223372036854775807

/-- Modelled from the spec: the TTL sentinel constant `NEVER_EXPIRE` used by
generic.go (`Set`, `GetTTL`) is declared in a file of this repository that is
not under src/.  The spec fixes the never-expire sentinel as a distinguished
duration constant, and the parallel revision in src/cache.go declares it as
`NO_EXPIRATION time.Duration = -1`, i.e. minus one nanosecond; the sentinel is
therefore taken to be the duration -1 ns. -/
def NEVER_EXPIRE : Int := -1

/-- `Int64` wrap-around for Go's fixed-width integer addition/subtraction. -/
def wrap64 (x : Int) : Int :=
  (x + 9223372036854775808) % 18446744073709551616 - 9223372036854775808

/-- `time.UnixMilli` of an instant given in Unix nanoseconds (floor division,
which is what Go computes for instants at or after the epoch). -/
def toMs (ns : Int) : Int :=
  ns / 1000000

/-- part_001: an `Item` is a stored object plus its expiration time in ms. -/
structure Item where
  Object : Val
  ExpireMs : Int
deriving DecidableEq

/-- part_001: `item.expired()` is `time.Now().UnixMilli() > item.ExpireMs`. -/
def Item.expired (i : Item) (nowNs : Int) : Bool :=
  toMs nowNs > i.ExpireMs

/-- part_001: `item.neverExpire()` is `item.ExpireMs == kNeverExpireMs`. -/
def Item.neverExpire (i : Item) : Bool :=
  i.ExpireMs = kNeverExpireMs

/-- cache.go 18-27: the store.  `persistItems` holds never-expiring entries,
`volatileItems` holds TTL entries, `changed` is the dirty flag.  The mutex,
context and watcher handles are concurrency plumbing with no data content. -/
structure Cache where
  persistItems : SMap Item
  volatileItems : SMap Item
  changed : Bool
deriving DecidableEq

/-- The store New builds before seeding: both partitions empty, not dirty. -/
def emptyCache : Cache :=
  { persistItems := [], volatileItems := [], changed := false }

/-- cache.go 44-50 (seeding loop of `New`): each loaded item goes to
`persistItems` when its expiry equals the never-expire sentinel (the
`item.ExpireAt == gNoExpiration` test, which in the millisecond
representation of part_001 is `item.ExpireMs == kNeverExpireMs`), and to
`volatileItems` otherwise.  A Go map range visits each key once; the fold
mirrors that assignment loop. -/
def NewFromItems : SMap Item → Cache
  | [] => emptyCache
  | (k, item) :: rest =>
    let c := NewFromItems rest
    if item.ExpireMs = kNeverExpireMs then
      { c with persistItems := minsert c.persistItems k item }
    else
      { c with volatileItems := minsert c.volatileItems k item }

/-- cache.go 29-57: `New`.  `loadResult = none` models `persister == nil`
(no load attempted); `some (.error e)` aborts construction with the load
error; `some (.ok items)` seeds the partitions.  The spawned watcher task is
modelled separately by `watcherStep`. -/
def New (loadResult : Option (Except String (SMap Item))) : Except String Cache :=
  match loadResult with
  | none => .ok emptyCache
  | some (.error e) => .error e
  | some (.ok items) => .ok (NewFromItems items)

/-- generic.go 35-46 (and the identical method cache.go 100-111): `Exists`. -/
def Exists (c : Cache) (key : String) (nowNs : Int) : Bool :=
  match mfind c.persistItems key with
  | some _ => true
  | none =>
    match mfind c.volatileItems key with
    | some item => ! item.expired nowNs
    | none => false

/-- generic.go 49-72: typed `Get[T]`.  A hit in `persistItems` is returned
without an expiry check; otherwise the key must be in `volatileItems` and
unexpired; then the stored object is type-asserted against the requested
type, `ErrInvalidType` on mismatch. -/
def Get (τ : Ty) (c : Cache) (key : String) (nowNs : Int) : Except Err Val :=
  match mfind c.persistItems key with
  | some item =>
    if item.Object.ty = τ then .ok item.Object else .error .invalidType
  | none =>
    match mfind c.volatileItems key with
    | some item =>
      if item.expired nowNs then .error .notExists
      else if item.Object.ty = τ then .ok item.Object else .error .invalidType
    | none => .error .notExists

/-- generic.go 74-94 (and the same algorithm over `ExpireAt` in cache.go
133-153): `GetTTL`, returning a duration in nanoseconds.  Permanent entries
answer the `NEVER_EXPIRE` sentinel; a timed entry answers
`(ExpireMs - nowMs) * time.Millisecond` unless `ExpireMs < nowMs`, which is
`ErrNotExists`; an absent key is `ErrNotExists`. -/
def GetTTL (c : Cache) (key : String) (nowNs : Int) : Except Err Int :=
  match mfind c.persistItems key with
  | some _ => .ok NEVER_EXPIRE
  | none =>
    match mfind c.volatileItems key with
    | none => .error .notExists
    | some item =>
      let nowMs := toMs nowNs
      if item.ExpireMs < nowMs then .error .notExists
      else .ok ((item.ExpireMs - nowMs) * 1000000)

/-- generic.go 190-207 (and the same algorithm in cache.go 155-179): `Set`.
The sentinel TTL deletes the key from `volatileItems` and upserts into
`persistItems` with the sentinel expiry; any other TTL deletes the key from
`persistItems` and upserts into `volatileItems` with expiry
`time.Now().Add(ttl).UnixMilli()`.  Both branches mark the store dirty, all
under one lock acquisition.  `Set` returns no error. -/
def Set (c : Cache) (key : String) (val : Val) (ttlNs nowNs : Int) : Cache :=
  if ttlNs = NEVER_EXPIRE then
    { c with
      volatileItems := merase c.volatileItems key
      persistItems := minsert c.persistItems key ⟨val, kNeverExpireMs⟩
      changed := true }
  else
    { c with
      persistItems := merase c.persistItems key
      volatileItems := minsert c.volatileItems key ⟨val, toMs (nowNs + ttlNs)⟩
      changed := true }

/-- generic.go 209-219 (and cache.go 181-191 `Del`): `Delete` removes the key
from whichever partition holds it and marks dirty only when a binding
actually existed. -/
def Delete (c : Cache) (key : String) : Cache :=
  match mfind c.persistItems key with
  | some _ => { c with persistItems := merase c.persistItems key, changed := true }
  | none =>
    match mfind c.volatileItems key with
    | some _ => { c with volatileItems := merase c.volatileItems key, changed := true }
    | none => c

/-- generic.go 221-229: `DeleteKeys` deletes every listed key from both
partitions.  The source never assigns `c.changed` in this function. -/
def DeleteKeys (c : Cache) (keys : List String) : Cache :=
  keys.foldl
    (fun acc k =>
      { acc with
        persistItems := merase acc.persistItems k
        volatileItems := merase acc.volatileItems k })
    c

/-- The lookup shared by the mutate operations (generic.go 239-245 and its
copies): take the item from `persistItems` if present, else from
`volatileItems` provided it is unexpired. -/
def findForMutate (c : Cache) (key : String) (nowNs : Int) : Option Item :=
  match mfind c.persistItems key with
  | some item => some item
  | none =>
    match mfind c.volatileItems key with
    | some item => if item.expired nowNs then none else some item
    | none => none

/-- The write-back shared by the mutate operations (generic.go 255-260 and
its copies): store the updated item into `persistItems` when
`item.neverExpire()` and into `volatileItems` otherwise, and mark dirty. -/
def writeBack (c : Cache) (key : String) (item : Item) : Cache :=
  if item.neverExpire then
    { c with persistItems := minsert c.persistItems key item, changed := true }
  else
    { c with volatileItems := minsert c.volatileItems key item, changed := true }

/-- generic.go 231-263: `Increase[T]` (Go's `+` on int64 wraps). -/
def Increase (c : Cache) (key : String) (val : Int) (nowNs : Int) :
    Cache × Except Err Int :=
  match findForMutate c key nowNs with
  | none => (c, .error .notExists)
  | some item =>
    match item.Object with
    | .vInt oldV =>
      let newV := wrap64 (oldV + val)
      (writeBack c key { item with Object := .vInt newV }, .ok newV)
    | _ => (c, .error .invalidType)

/-- generic.go 265-297: `Decrease[T]`, the mirror of `Increase`. -/
def Decrease (c : Cache) (key : String) (val : Int) (nowNs : Int) :
    Cache × Except Err Int :=
  match findForMutate c key nowNs with
  | none => (c, .error .notExists)
  | some item =>
    match item.Object with
    | .vInt oldV =>
      let newV := wrap64 (oldV - val)
      (writeBack c key { item with Object := .vInt newV }, .ok newV)
    | _ => (c, .error .invalidType)

/-- generic.go 300-330: `AppendToSlice[T]`. -/
def AppendToSlice (c : Cache) (key : String) (val : Int) (nowNs : Int) :
    Cache × Option Err :=
  match findForMutate c key nowNs with
  | none => (c, some .notExists)
  | some item =>
    match item.Object with
    | .vSlice xs =>
      (writeBack c key { item with Object := .vSlice (xs ++ [val]) }, none)
    | _ => (c, some .invalidType)

/-- generic.go 333-362: `InsertToMap[T]` sets `valMap[name] = val` (the
stored map is mutated through its reference) and also writes the item back,
marking dirty. -/
def InsertToMap (c : Cache) (key name : String) (val : Int) (nowNs : Int) :
    Cache × Option Err :=
  match findForMutate c key nowNs with
  | none => (c, some .notExists)
  | some item =>
    match item.Object with
    | .vMap m =>
      (writeBack c key { item with Object := .vMap (minsert m name val) }, none)
    | _ => (c, some .invalidType)

/-- generic.go 365-387: `DeleteFromMap[T]` runs `delete(valMap, name)` on the
stored map.  Go maps are references, so the entry in whichever partition the
item was found mutates in place; unlike the other mutate operations the
source neither writes the item back nor assigns `c.changed`. -/
def DeleteFromMap (c : Cache) (key name : String) (nowNs : Int) :
    Cache × Option Err :=
  match mfind c.persistItems key with
  | some item =>
    match item.Object with
    | .vMap m =>
      ({ c with persistItems := minsert c.persistItems key { item with Object := .vMap (merase m name) } },
       none)
    | _ => (c, some .invalidType)
  | none =>
    match mfind c.volatileItems key with
    | some item =>
      if item.expired nowNs then (c, some .notExists)
      else
        match item.Object with
        | .vMap m =>
          ({ c with volatileItems := minsert c.volatileItems key { item with Object := .vMap (merase m name) } },
           none)
        | _ => (c, some .invalidType)
    | none => (c, some .notExists)

/-- cache.go 64-74: the expiry sweep.  Every volatile entry with
`now.After(item.ExpireAt)` (strictly past expiry; `item.expired` in the
millisecond representation) is deleted and each deletion sets `changed`. -/
def cleanup (c : Cache) (nowNs : Int) : Cache :=
  { c with
    volatileItems := c.volatileItems.filter (fun p => ! p.2.expired nowNs)
    changed := c.changed || c.volatileItems.any (fun p => p.2.expired nowNs) }

/-- cache.go 76-98: `persist`.  With no persister it returns at once and Save
is never called (`none`).  Otherwise `items` starts empty; only when the
store is dirty are the merged unexpired contents copied in and the dirty
flag cleared, under the read lock; then `c.persister.Save(items)` is invoked
unconditionally — also on a clean tick, where `items` is still empty — as a
bare statement, so the environment's answer `saveResult` to that call is
discarded and never influences the state.  The second component records the
mapping handed to Save (`some payload`), or `none` when Save was not
called. -/
def persistCall (hasPersister : Bool) (c : Cache) (nowNs : Int)
    (_saveResult : SMap Item → Except String Unit) : Cache × Option (SMap Item) :=
  if hasPersister = false then (c, none)
  else if c.changed then
    ({ c with changed := false },
     some (c.persistItems ++ c.volatileItems.filter (fun p => ! p.2.expired nowNs)))
  else (c, some [])

/-- The events the watcher loop (part_000 58-103, spawned by cache.go 54)
selects over. -/
inductive WatchEvent where
  | ctxDone
  | cleanupTick
  | persistTick

/-- One iteration of `watcher.Run`: context cancellation runs a final persist
and stops the loop; a cleanup tick sweeps; a persist tick persists; the loop
keeps running after every tick regardless of any save outcome.  The third
component is whether the loop continues. -/
def watcherStep (hasPersister : Bool) (c : Cache) (ev : WatchEvent) (nowNs : Int)
    (saveResult : SMap Item → Except String Unit) :
    Cache × Option (SMap Item) × Bool :=
  match ev with
  | .ctxDone =>
    let r := persistCall hasPersister c nowNs saveResult
    (r.1, r.2, false)
  | .cleanupTick => (cleanup c nowNs, none, true)
  | .persistTick =>
    let r := persistCall hasPersister c nowNs saveResult
    (r.1, r.2, true)

/-- persist.go 88-92: the post-decode loop of `Load` deletes every entry that
is already expired at load time. -/
def dropExpired (items : SMap Item) (nowNs : Int) : SMap Item :=
  items.filter (fun p => ! p.2.expired nowNs)

/-- Outcome of `gob.NewDecoder(r).Decode(&items)` in persist.go 84-86.  On
error, `items` holds whatever the failed decode left behind (the source
discards the returned error). -/
inductive DecodeOutcome where
  | ok (items : SMap Item)
  | err (leftoverItems : SMap Item)

/-- Outcome of the `os.Open` call of persist.go 70, together with the
follow-up interaction the source performs in each case: decoding an opened
file, or creating a missing one. -/
inductive OpenResult where
  | opened (d : DecodeOutcome)
  | errNotExist (create : Except String Unit)
  | errOther (e : String)

/-- persist.go 69-95: `FilePersister.Load`.  A missing file is created and
reported as success with an empty mapping (unless the create itself fails);
any other open error is returned; an opened file is decoded with the decode
error discarded, and entries already expired at load time are dropped. -/
def FilePersisterLoad (r : OpenResult) (nowNs : Int) : Except String (SMap Item) :=
  match r with
  | .errNotExist (.ok _) => .ok []
  | .errNotExist (.error e) => .error e
  | .errOther e => .error e
  | .opened (.ok items) => .ok (dropExpired items nowNs)
  | .opened (.err leftoverItems) => .ok (dropExpired leftoverItems nowNs)

/-- The store invariant behind partition exclusivity: permanent entries carry
the sentinel expiry, timed entries never do, and no key is bound in both
partitions. -/
def Inv (c : Cache) : Prop :=
  (∀ p ∈ c.persistItems, (p : String × Item).2.ExpireMs = kNeverExpireMs) ∧
  (∀ p ∈ c.volatileItems, (p : String × Item).2.ExpireMs ≠ kNeverExpireMs) ∧
  (∀ k, k ∈ mkeys c.persistItems → k ∉ mkeys c.volatileItems)

/-- One observable transition of the store.  Each constructor is one exported
operation of the source, executed under a single acquisition of the store
lock.  The bounds on `Set` record the Go types at play: a TTL is an `int64`
count of nanoseconds and `nowNs` is a post-1970 clock reading representable
as an `int64`, so a computed expiry can never reach `kNeverExpireMs`. -/
inductive Step : Cache → Cache → Prop where
  | set (c : Cache) (key : String) (v : Val) (ttlNs nowNs : Int)
      (httl1 : -9223372036854775808 ≤ ttlNs) (httl2 : ttlNs ≤ 9223372036854775807)
      (hnow1 : 0 ≤ nowNs) (hnow2 : nowNs ≤ 9223372036854775807) :
      Step c (Set c key v ttlNs nowNs)
  | delete (c : Cache) (key : String) : Step c (Delete c key)
  | deleteKeys (c : Cache) (keys : List String) : Step c (DeleteKeys c keys)
  | increase (c : Cache) (key : String) (v nowNs : Int) :
      Step c (Increase c key v nowNs).1
  | decrease (c : Cache) (key : String) (v nowNs : Int) :
      Step c (Decrease c key v nowNs).1
  | appendToSlice (c : Cache) (key : String) (v nowNs : Int) :
      Step c (AppendToSlice c key v nowNs).1
  | insertToMap (c : Cache) (key name : String) (v nowNs : Int) :
      Step c (InsertToMap c key name v nowNs).1
  | deleteFromMap (c : Cache) (key name : String) (nowNs : Int) :
      Step c (DeleteFromMap c key name nowNs).1
  | cleanupTick (c : Cache) (nowNs : Int) : Step c (cleanup c nowNs)
  | persistTick (c : Cache) (hasPersister : Bool) (nowNs : Int)
      (saveResult : SMap Item → Except String Unit) :
      Step c (persistCall hasPersister c nowNs saveResult).1

/-- The store states reachable through the public interface: a construction
seed (a loaded Go map, hence with unique keys) followed by any sequence of
operations. -/
inductive Reachable : Cache → Prop where
  | init (items : SMap Item) (h : NodupKeys items) : Reachable (NewFromItems items)
  | step {c c2 : Cache} : Reachable c → Step c c2 → Reachable c2

/-! ### Association-list lemmas -/

theorem mfind_mem {α : Type} {m : SMap α} {k : String} {v : α}
    (h : mfind m k = some v) : (k, v) ∈ m := by
  induction m with
  | nil => simp [mfind] at h
  | cons p rest ih =>
    obtain ⟨k1, v1⟩ := p
    by_cases hk : k1 = k
    · subst hk
      simp [mfind] at h
      simp [h]
    · simp [mfind, hk] at h
      exact List.mem_cons_of_mem _ (ih h)

theorem mfind_eq_none_iff {α : Type} {m : SMap α} {k : String} :
    mfind m k = none ↔ k ∉ mkeys m := by
  induction m with
  | nil => simp [mfind, mkeys]
  | cons p rest ih =>
    obtain ⟨k1, v1⟩ := p
    by_cases hk : k1 = k
    · subst hk
      simp [mfind, mkeys]
    · simp [mfind, hk, mkeys] at ih ⊢
      exact ⟨fun h => ⟨fun he => hk he.symm, (ih.mp h)⟩, fun h => ih.mpr h.2⟩

theorem mem_merase {α : Type} {m : SMap α} {k : String} {p : String × α}
    (h : p ∈ merase m k) : p ∈ m := by
  induction m with
  | nil => simp [merase] at h
  | cons q rest ih =>
    obtain ⟨k1, v1⟩ := q
    by_cases hk : k1 = k
    · simp only [merase, if_pos hk] at h
      exact List.mem_cons_of_mem _ (ih h)
    · simp only [merase, if_neg hk] at h
      rcases List.mem_cons.mp h with h1 | h1
      · exact h1 ▸ List.mem_cons_self _ _
      · exact List.mem_cons_of_mem _ (ih h1)

theorem mkeys_merase_sub {α : Type} {m : SMap α} {k k1 : String}
    (h : k1 ∈ mkeys (merase m k)) : k1 ∈ mkeys m := by
  simp only [mkeys, List.mem_map] at h ⊢
  obtain ⟨p, hp, hpk⟩ := h
  exact ⟨p, mem_merase hp, hpk⟩

theorem not_mem_mkeys_merase_self {α : Type} (m : SMap α) (k : String) :
    k ∉ mkeys (merase m k) := by
  induction m with
  | nil => simp [merase, mkeys]
  | cons q rest ih =>
    obtain ⟨k1, v1⟩ := q
    by_cases hk : k1 = k
    · simpa [merase, if_pos hk] using ih
    · simp [merase, if_neg hk, mkeys] at ih ⊢
      exact ⟨fun he => hk he.symm, ih⟩

theorem mfind_merase_self {α : Type} (m : SMap α) (k : String) :
    mfind (merase m k) k = none :=
  mfind_eq_none_iff.mpr (not_mem_mkeys_merase_self m k)

theorem mfind_merase_ne {α : Type} (m : SMap α) {k k1 : String} (h : k1 ≠ k) :
    mfind (merase m k) k1 = mfind m k1 := by
  induction m with
  | nil => simp [merase]
  | cons q rest ih =>
    obtain ⟨k2, v2⟩ := q
    by_cases hk : k2 = k
    · subst hk
      have hne : k2 ≠ k1 := fun he => h he.symm
      simp [merase, mfind, hne, ih]
    · by_cases hk1 : k2 = k1
      · subst hk1
        simp [merase, hk, mfind]
      · simp [merase, hk, mfind, hk1, ih]

theorem mfind_minsert_self {α : Type} (m : SMap α) (k : String) (v : α) :
    mfind (minsert m k v) k = some v := by
  simp [minsert, mfind]

theorem mfind_minsert_ne {α : Type} (m : SMap α) {k k1 : String} (v : α) (h : k1 ≠ k) :
    mfind (minsert m k v) k1 = mfind m k1 := by
  have hne : k ≠ k1 := fun he => h he.symm
  simp only [minsert, mfind, if_neg hne]
  exact mfind_merase_ne m h

theorem mem_minsert {α : Type} {m : SMap α} {k : String} {v : α} {p : String × α}
    (h : p ∈ minsert m k v) : p = (k, v) ∨ p ∈ m := by
  rcases List.mem_cons.mp h with h1 | h1
  · exact Or.inl h1
  · exact Or.inr (mem_merase h1)

theorem mkeys_minsert {α : Type} {m : SMap α} {k k1 : String} {v : α}
    (h : k1 ∈ mkeys (minsert m k v)) : k1 = k ∨ k1 ∈ mkeys m := by
  simp only [mkeys, List.mem_map] at h
  obtain ⟨p, hp, hpk⟩ := h
  rcases mem_minsert hp with h1 | h1
  · left; rw [← hpk, h1]
  · right
    simp only [mkeys, List.mem_map]
    exact ⟨p, h1, hpk⟩

theorem mem_mkeys_of_mfind {α : Type} {m : SMap α} {k : String} {v : α}
    (h : mfind m k = some v) : k ∈ mkeys m := by
  simp only [mkeys, List.mem_map]
  exact ⟨(k, v), mfind_mem h, rfl⟩

theorem mkeys_filter_sub {α : Type} {m : SMap α} {p : String × α → Bool} {k : String}
    (h : k ∈ mkeys (m.filter p)) : k ∈ mkeys m := by
  simp only [mkeys, List.mem_map] at h ⊢
  obtain ⟨q, hq, hqk⟩ := h
  exact ⟨q, (List.mem_filter.mp hq).1, hqk⟩

theorem not_mem_mkeys_filter {α : Type} {m : SMap α} {p : String × α → Bool}
    {k : String} {v : α} (hnd : NodupKeys m) (hf : mfind m k = some v)
    (hp : p (k, v) = false) : k ∉ mkeys (m.filter p) := by
  induction m with
  | nil => simp [mkeys]
  | cons q rest ih =>
    obtain ⟨k1, v1⟩ := q
    have hnd1 : k1 ∉ mkeys rest ∧ NodupKeys rest := by
      simpa [NodupKeys, mkeys] using hnd
    intro hmem
    rw [List.filter_cons] at hmem
    by_cases hk : k1 = k
    · subst hk
      have hv : v1 = v := by simpa [mfind] using hf
      subst hv
      simp only [hp] at hmem
      simp only [Bool.false_eq_true, if_false] at hmem
      exact hnd1.1 (mkeys_filter_sub hmem)
    · simp only [mfind, if_neg hk] at hf
      by_cases hq : p (k1, v1) = true
      · simp only [hq, if_true] at hmem
        simp only [mkeys, List.map_cons, List.mem_cons] at hmem
        rcases hmem with h1 | h1
        · exact hk h1.symm
        · exact ih hnd1.2 hf (by simpa [mkeys] using h1)
      · simp only [hq, if_false] at hmem
        exact ih hnd1.2 hf hmem

/-! ### Arithmetic facts about computed expiry times -/

theorem toMs_ne_sentinel {nowNs ttlNs : Int}
    (h2 : ttlNs ≤ 9223372036854775807) (h4 : nowNs ≤ 9223372036854775807) :
    toMs (nowNs + ttlNs) ≠ kNeverExpireMs := by
  unfold toMs kNeverExpireMs
  omega

theorem toMs_add_pos {nowNs ttlNs : Int} (h : 0 < ttlNs) :
    toMs nowNs ≤ toMs (nowNs + ttlNs) := by
  unfold toMs
  omega

theorem toMs_add_le_neg_ms {nowNs ttlNs : Int} (h : ttlNs ≤ -1000000) :
    toMs (nowNs + ttlNs) < toMs nowNs := by
  unfold toMs
  omega

/-! ### Preservation of the partition invariant -/

theorem inv_changed (c : Cache) (b : Bool) (h : Inv c) : Inv { c with changed := b } :=
  h

theorem inv_Set {c : Cache} {key : String} {v : Val} {ttlNs nowNs : Int}
    (h : Inv c)
    (httl2 : ttlNs ≤ 9223372036854775807)
    (hnow2 : nowNs ≤ 9223372036854775807) :
    Inv (Set c key v ttlNs nowNs) := by
  obtain ⟨h1, h2, h3⟩ := h
  unfold Set
  by_cases hs : ttlNs = NEVER_EXPIRE
  · rw [if_pos hs]
    refine ⟨?_, ?_, ?_⟩
    · intro p hp
      rcases mem_minsert hp with hq | hq
      · rw [hq]
      · exact h1 p hq
    · intro p hp
      exact h2 p (mem_merase hp)
    · intro k hk hk2
      have hk3 := mkeys_merase_sub hk2
      rcases mkeys_minsert hk with hq | hq
      · subst hq
        exact not_mem_mkeys_merase_self _ _ hk2
      · exact h3 k hq hk3
  · rw [if_neg hs]
    refine ⟨?_, ?_, ?_⟩
    · intro p hp
      exact h1 p (mem_merase hp)
    · intro p hp
      rcases mem_minsert hp with hq | hq
      · rw [hq]
        exact toMs_ne_sentinel httl2 hnow2
      · exact h2 p hq
    · intro k hk hk2
      have hk3 := mkeys_merase_sub hk
      rcases mkeys_minsert hk2 with hq | hq
      · subst hq
        exact not_mem_mkeys_merase_self _ _ hk
      · exact h3 k hk3 hq

theorem inv_Delete {c : Cache} {key : String} (h : Inv c) : Inv (Delete c key) := by
  obtain ⟨h1, h2, h3⟩ := h
  unfold Delete
  cases hp : mfind c.persistItems key with
  | some i =>
    exact ⟨fun p hp1 => h1 p (mem_merase hp1), h2,
      fun k hk => h3 k (mkeys_merase_sub hk)⟩
  | none =>
    cases hv : mfind c.volatileItems key with
    | some i =>
      exact ⟨h1, fun p hp1 => h2 p (mem_merase hp1),
        fun k hk hk2 => h3 k hk (mkeys_merase_sub hk2)⟩
    | none => exact ⟨h1, h2, h3⟩

theorem inv_eraseBoth {c : Cache} {key : String} (h : Inv c) :
    Inv { c with
          persistItems := merase c.persistItems key
          volatileItems := merase c.volatileItems key } := by
  obtain ⟨h1, h2, h3⟩ := h
  exact ⟨fun p hp => h1 p (mem_merase hp), fun p hp => h2 p (mem_merase hp),
    fun k hk hk2 => h3 k (mkeys_merase_sub hk) (mkeys_merase_sub hk2)⟩

theorem inv_DeleteKeys {c : Cache} {keys : List String} (h : Inv c) :
    Inv (DeleteKeys c keys) := by
  induction keys generalizing c with
  | nil => exact h
  | cons k ks ih =>
    rw [DeleteKeys, List.foldl_cons]
    exact ih (inv_eraseBoth h)

theorem findForMutate_cases {c : Cache} {key : String} {nowNs : Int} {item : Item}
    (hf : findForMutate c key nowNs = some item) :
    mfind c.persistItems key = some item ∨
      (mfind c.persistItems key = none ∧ mfind c.volatileItems key = some item ∧
        item.expired nowNs = false) := by
  unfold findForMutate at hf
  cases hp : mfind c.persistItems key with
  | some i =>
    rw [hp] at hf
    simp at hf
    exact Or.inl (by rw [hf])
  | none =>
    rw [hp] at hf
    cases hv : mfind c.volatileItems key with
    | some i =>
      rw [hv] at hf
      by_cases hexp : i.expired nowNs = true
      · simp [hexp] at hf
      · simp [hexp] at hf
        refine Or.inr ⟨rfl, by rw [hf], ?_⟩
        rw [← hf]
        simpa using hexp
    | none =>
      rw [hv] at hf
      simp at hf

theorem inv_writeBack {c : Cache} {key : String} {nowNs : Int} {item item2 : Item}
    (h : Inv c) (hf : findForMutate c key nowNs = some item)
    (he : item2.ExpireMs = item.ExpireMs) :
    Inv (writeBack c key item2) := by
  obtain ⟨h1, h2, h3⟩ := h
  unfold writeBack
  rcases findForMutate_cases hf with hp | ⟨hp, hv, hexp⟩
  · have hsent : item.ExpireMs = kNeverExpireMs := h1 (key, item) (mfind_mem hp)
    have hne : item2.neverExpire = true := by
      simp [Item.neverExpire, he, hsent]
    rw [if_pos hne]
    refine ⟨?_, h2, ?_⟩
    · intro p hp1
      rcases mem_minsert hp1 with hq | hq
      · rw [hq]
        simp [he, hsent]
      · exact h1 p hq
    · intro k hk
      rcases mkeys_minsert hk with hq | hq
      · subst hq
        exact h3 k (mem_mkeys_of_mfind hp)
      · exact h3 k hq
  · have hns : item.ExpireMs ≠ kNeverExpireMs := h2 (key, item) (mfind_mem hv)
    have hne : ¬ (item2.neverExpire = true) := by
      simp [Item.neverExpire, he, hns]
    rw [if_neg hne]
    refine ⟨h1, ?_, ?_⟩
    · intro p hp1
      rcases mem_minsert hp1 with hq | hq
      · rw [hq]
        simpa [he] using hns
      · exact h2 p hq
    · intro k hk hk2
      rcases mkeys_minsert hk2 with hq | hq
      · subst hq
        exact (mfind_eq_none_iff.mp hp) hk
      · exact h3 k hk hq

theorem inv_Increase {c : Cache} {key : String} {v nowNs : Int} (h : Inv c) :
    Inv (Increase c key v nowNs).1 := by
  unfold Increase
  cases hf : findForMutate c key nowNs with
  | none => exact h
  | some item =>
    obtain ⟨o, e⟩ := item
    cases o with
    | vInt oldV => exact inv_writeBack h hf rfl
    | vStr s => exact h
    | vBool b => exact h
    | vSlice xs => exact h
    | vMap m => exact h

theorem inv_Decrease {c : Cache} {key : String} {v nowNs : Int} (h : Inv c) :
    Inv (Decrease c key v nowNs).1 := by
  unfold Decrease
  cases hf : findForMutate c key nowNs with
  | none => exact h
  | some item =>
    obtain ⟨o, e⟩ := item
    cases o with
    | vInt oldV => exact inv_writeBack h hf rfl
    | vStr s => exact h
    | vBool b => exact h
    | vSlice xs => exact h
    | vMap m => exact h

theorem inv_AppendToSlice {c : Cache} {key : String} {v nowNs : Int} (h : Inv c) :
    Inv (AppendToSlice c key v nowNs).1 := by
  unfold AppendToSlice
  cases hf : findForMutate c key nowNs with
  | none => exact h
  | some item =>
    obtain ⟨o, e⟩ := item
    cases o with
    | vSlice xs => exact inv_writeBack h hf rfl
    | vStr s => exact h
    | vBool b => exact h
    | vInt n => exact h
    | vMap m => exact h

theorem inv_InsertToMap {c : Cache} {key name : String} {v nowNs : Int} (h : Inv c) :
    Inv (InsertToMap c key name v nowNs).1 := by
  unfold InsertToMap
  cases hf : findForMutate c key nowNs with
  | none => exact h
  | some item =>
    obtain ⟨o, e⟩ := item
    cases o with
    | vMap m => exact inv_writeBack h hf rfl
    | vStr s => exact h
    | vBool b => exact h
    | vInt n => exact h
    | vSlice xs => exact h

theorem inv_DeleteFromMap {c : Cache} {key name : String} {nowNs : Int} (h : Inv c) :
    Inv (DeleteFromMap c key name nowNs).1 := by
  obtain ⟨h1, h2, h3⟩ := h
  unfold DeleteFromMap
  split
  · rename_i item hp
    split
    · rename_i m ho
      refine ⟨?_, h2, ?_⟩
      · intro p hp1
        rcases mem_minsert hp1 with hq | hq
        · rw [hq]
          exact h1 (key, item) (mfind_mem hp)
        · exact h1 p hq
      · intro k hk
        rcases mkeys_minsert hk with hq | hq
        · subst hq
          exact h3 k (mem_mkeys_of_mfind hp)
        · exact h3 k hq
    · exact ⟨h1, h2, h3⟩
  · rename_i hp
    split
    · rename_i item hv
      split
      · exact ⟨h1, h2, h3⟩
      · rename_i hexp
        split
        · rename_i m ho
          refine ⟨h1, ?_, ?_⟩
          · intro p hp1
            rcases mem_minsert hp1 with hq | hq
            · rw [hq]
              exact h2 (key, item) (mfind_mem hv)
            · exact h2 p hq
          · intro k hk hk2
            rcases mkeys_minsert hk2 with hq | hq
            · subst hq
              exact (mfind_eq_none_iff.mp hp) hk
            · exact h3 k hk hq
        · exact ⟨h1, h2, h3⟩
    · exact ⟨h1, h2, h3⟩

theorem inv_cleanup {c : Cache} {nowNs : Int} (h : Inv c) : Inv (cleanup c nowNs) := by
  obtain ⟨h1, h2, h3⟩ := h
  exact ⟨h1, fun p hp => h2 p (List.mem_filter.mp hp).1,
    fun k hk hk2 => h3 k hk (mkeys_filter_sub hk2)⟩

theorem inv_persistCall {c : Cache} {hasPersister : Bool} {nowNs : Int}
    {saveResult : SMap Item → Except String Unit} (h : Inv c) :
    Inv (persistCall hasPersister c nowNs saveResult).1 := by
  unfold persistCall
  by_cases h1 : hasPersister = false
  · rw [if_pos h1]
    exact h
  · rw [if_neg h1]
    by_cases h2 : c.changed
    · rw [if_pos h2]
      exact h
    · rw [if_neg h2]
      exact h

theorem mkeys_NewFromItems_persist {items : SMap Item} {k : String}
    (h : k ∈ mkeys (NewFromItems items).persistItems) : k ∈ mkeys items := by
  induction items with
  | nil => simp [NewFromItems, emptyCache, mkeys] at h
  | cons q rest ih =>
    obtain ⟨k0, i0⟩ := q
    by_cases hs : i0.ExpireMs = kNeverExpireMs
    · simp only [NewFromItems, if_pos hs] at h
      rcases mkeys_minsert h with hq | hq
      · subst hq
        simp [mkeys]
      · simp only [mkeys, List.map_cons, List.mem_cons]
        exact Or.inr (ih hq)
    · simp only [NewFromItems, if_neg hs] at h
      simp only [mkeys, List.map_cons, List.mem_cons]
      exact Or.inr (ih h)

theorem mkeys_NewFromItems_volatile {items : SMap Item} {k : String}
    (h : k ∈ mkeys (NewFromItems items).volatileItems) : k ∈ mkeys items := by
  induction items with
  | nil => simp [NewFromItems, emptyCache, mkeys] at h
  | cons q rest ih =>
    obtain ⟨k0, i0⟩ := q
    by_cases hs : i0.ExpireMs = kNeverExpireMs
    · simp only [NewFromItems, if_pos hs] at h
      simp only [mkeys, List.map_cons, List.mem_cons]
      exact Or.inr (ih h)
    · simp only [NewFromItems, if_neg hs] at h
      rcases mkeys_minsert h with hq | hq
      · subst hq
        simp [mkeys]
      · simp only [mkeys, List.map_cons, List.mem_cons]
        exact Or.inr (ih hq)

theorem inv_NewFromItems {items : SMap Item} (h : NodupKeys items) :
    Inv (NewFromItems items) := by
  induction items with
  | nil => exact ⟨by simp [NewFromItems, emptyCache], by simp [NewFromItems, emptyCache],
      by simp [NewFromItems, emptyCache, mkeys]⟩
  | cons q rest ih =>
    obtain ⟨k0, i0⟩ := q
    have hnd : k0 ∉ mkeys rest ∧ NodupKeys rest := by
      simpa [NodupKeys, mkeys] using h
    obtain ⟨ih1, ih2, ih3⟩ := ih hnd.2
    by_cases hs : i0.ExpireMs = kNeverExpireMs
    · simp only [NewFromItems, if_pos hs]
      refine ⟨?_, ih2, ?_⟩
      · intro p hp
        rcases mem_minsert hp with hq | hq
        · rw [hq]
          exact hs
        · exact ih1 p hq
      · intro k hk
        rcases mkeys_minsert hk with hq | hq
        · subst hq
          intro hk2
          exact hnd.1 (mkeys_NewFromItems_volatile hk2)
        · exact ih3 k hq
    · simp only [NewFromItems, if_neg hs]
      refine ⟨ih1, ?_, ?_⟩
      · intro p hp
        rcases mem_minsert hp with hq | hq
        · rw [hq]
          exact hs
        · exact ih2 p hq
      · intro k hk hk2
        rcases mkeys_minsert hk2 with hq | hq
        · subst hq
          exact hnd.1 (mkeys_NewFromItems_persist hk)
        · exact ih3 k hk hq

theorem inv_step {c c2 : Cache} (h : Inv c) (hs : Step c c2) : Inv c2 := by
  cases hs with
  | set key v ttlNs nowNs httl1 httl2 hnow1 hnow2 => exact inv_Set h httl2 hnow2
  | delete key => exact inv_Delete h
  | deleteKeys keys => exact inv_DeleteKeys h
  | increase key v nowNs => exact inv_Increase h
  | decrease key v nowNs => exact inv_Decrease h
  | appendToSlice key v nowNs => exact inv_AppendToSlice h
  | insertToMap key name v nowNs => exact inv_InsertToMap h
  | deleteFromMap key name nowNs => exact inv_DeleteFromMap h
  | cleanupTick nowNs => exact inv_cleanup h
  | persistTick hasPersister nowNs saveResult => exact inv_persistCall h

theorem inv_reachable {c : Cache} (h : Reachable c) : Inv c := by
  induction h with
  | init items hnd => exact inv_NewFromItems hnd
  | step hr hs ih => exact inv_step ih hs

/-! ### What `Set` leaves behind at the written key -/

theorem Set_timed_shape {c : Cache} {k : String} {v : Val} {ttlNs nowNs : Int}
    (h : ttlNs ≠ NEVER_EXPIRE) :
    Set c k v ttlNs nowNs =
      { c with
        persistItems := merase c.persistItems k
        volatileItems := minsert c.volatileItems k ⟨v, toMs (nowNs + ttlNs)⟩
        changed := true } := by
  unfold Set
  rw [if_neg h]

theorem Set_timed_find {c : Cache} {k : String} {v : Val} {ttlNs nowNs : Int}
    (h : ttlNs ≠ NEVER_EXPIRE) :
    mfind (Set c k v ttlNs nowNs).persistItems k = none ∧
      mfind (Set c k v ttlNs nowNs).volatileItems k = some ⟨v, toMs (nowNs + ttlNs)⟩ := by
  rw [Set_timed_shape h]
  exact ⟨mfind_merase_self _ _, mfind_minsert_self _ _ _⟩

theorem Set_never_shape (c : Cache) (k : String) (v : Val) (nowNs : Int) :
    Set c k v NEVER_EXPIRE nowNs =
      { c with
        volatileItems := merase c.volatileItems k
        persistItems := minsert c.persistItems k ⟨v, kNeverExpireMs⟩
        changed := true } := by
  unfold Set
  rw [if_pos rfl]

theorem Set_never_find (c : Cache) (k : String) (v : Val) (nowNs : Int) :
    mfind (Set c k v NEVER_EXPIRE nowNs).volatileItems k = none ∧
      mfind (Set c k v NEVER_EXPIRE nowNs).persistItems k = some ⟨v, kNeverExpireMs⟩ := by
  rw [Set_never_shape]
  exact ⟨mfind_merase_self _ _, mfind_minsert_self _ _ _⟩

/-! ### Claim theorems -/

/-- C5: for every key `k`, value `v` and TTL `d > 0` (here `ttlNs`, the TTL in
nanoseconds), immediately after `Set(k, v, d)` — i.e. reading at the same
instant `nowNs` — the typed `Get` at the stored value's type returns `v` with
no error, and `Exists(k)` returns true. -/
theorem C5_set_then_get_exists (c : Cache) (k : String) (v : Val) (ttlNs nowNs : Int)
    (httl : 0 < ttlNs) :
    Get v.ty (Set c k v ttlNs nowNs) k nowNs = .ok v ∧
      Exists (Set c k v ttlNs nowNs) k nowNs = true := by
  have hts : ttlNs ≠ NEVER_EXPIRE := by
    unfold NEVER_EXPIRE
    omega
  have hexp : Item.expired ⟨v, toMs (nowNs + ttlNs)⟩ nowNs = false := by
    simp only [Item.expired, toMs, decide_eq_false_iff_not]
    omega
  constructor
  · simp [Get, Set_timed_shape hts, mfind_merase_self, mfind_minsert_self, hexp]
  · simp [Exists, Set_timed_shape hts, mfind_merase_self, mfind_minsert_self, hexp]

theorem C5_set_then_get_exists_witness :
    Get (Val.vStr "x").ty (Set emptyCache "k" (Val.vStr "x") 1000000000 0) "k" 0 =
        .ok (Val.vStr "x") ∧
      Exists (Set emptyCache "k" (Val.vStr "x") 1000000000 0) "k" 0 = true :=
  C5_set_then_get_exists emptyCache "k" (Val.vStr "x") 1000000000 0 (by norm_num)

/-- C8: for every key holding a present value that is unexpired (or permanent,
where no expiry check is made), if the stored value's runtime type differs
from the requested type, typed `Get` fails with `ErrInvalidType`, an error
distinct from `ErrNotExists`. -/
theorem C8_wrong_type_invalid (c : Cache) (k : String) (i : Item) (τ : Ty) (nowNs : Int)
    (hfound : mfind c.persistItems k = some i ∨
      (mfind c.persistItems k = none ∧ mfind c.volatileItems k = some i ∧
        i.expired nowNs = false))
    (hty : i.Object.ty ≠ τ) :
    Get τ c k nowNs = .error .invalidType ∧ Err.invalidType ≠ Err.notExists := by
  refine ⟨?_, by simp⟩
  rcases hfound with hp | ⟨hp, hv, hexp⟩
  · simp [Get, hp, hty]
  · simp [Get, hp, hv, hexp, hty]

theorem C8_wrong_type_invalid_witness :
    Get Ty.str (Set emptyCache "k" (Val.vInt 5) NEVER_EXPIRE 0) "k" 0 =
        .error .invalidType ∧
      Err.invalidType ≠ Err.notExists :=
  C8_wrong_type_invalid (Set emptyCache "k" (Val.vInt 5) NEVER_EXPIRE 0) "k"
    ⟨Val.vInt 5, kNeverExpireMs⟩ Ty.str 0
    (Or.inl (Set_never_find emptyCache "k" (Val.vInt 5) 0).2) (by simp [Val.ty])

/-- C7 counterexample: the claim says GetTTL fails with NotFound whenever the
remaining duration is not strictly positive, but at a remaining duration of
exactly zero (an entry written with TTL 0 and read at the same millisecond)
the code answers `ok 0`, not NotFound. -/
theorem C7_getTTL_counterexample :
    GetTTL (Set emptyCache "k" (Val.vInt 1) 0 5000000) "k" 5000000 = .ok 0 ∧
      GetTTL (Set emptyCache "k" (Val.vInt 1) 0 5000000) "k" 5000000 ≠
        .error Err.notExists := by
  refine ⟨rfl, ?_⟩
  intro hcontra
  rw [show GetTTL (Set emptyCache "k" (Val.vInt 1) 0 5000000) "k" 5000000 = .ok 0
      from rfl] at hcontra
  cases hcontra

/-- C7 (amended): GetTTL returns the never-expire sentinel for every key held
in the permanent partition; for a key in the timed partition it returns the
remaining duration `expiresAt - now` whenever that remainder is nonnegative
(including a remainder of exactly zero, where it returns a zero duration) and
fails with NotFound only when the expiry is strictly in the past (an expired
but unswept entry); for an absent key it fails with NotFound. -/
theorem C7_getTTL_spec (c : Cache) (k : String) (nowNs : Int) :
    (∀ i, mfind c.persistItems k = some i → GetTTL c k nowNs = .ok NEVER_EXPIRE) ∧
    (mfind c.persistItems k = none →
      ∀ i, mfind c.volatileItems k = some i →
        (toMs nowNs ≤ i.ExpireMs →
          GetTTL c k nowNs = .ok ((i.ExpireMs - toMs nowNs) * 1000000)) ∧
        (i.ExpireMs < toMs nowNs → GetTTL c k nowNs = .error .notExists)) ∧
    (mfind c.persistItems k = none → mfind c.volatileItems k = none →
      GetTTL c k nowNs = .error .notExists) := by
  refine ⟨?_, ?_, ?_⟩
  · intro i hp
    simp [GetTTL, hp]
  · intro hp i hv
    constructor
    · intro hle
      have hnlt : ¬ (i.ExpireMs < toMs nowNs) := by omega
      simp [GetTTL, hp, hv, hnlt]
    · intro hlt
      simp [GetTTL, hp, hv, hlt]
  · intro hp hv
    simp [GetTTL, hp, hv]

theorem C7_getTTL_spec_witness :
    GetTTL (Set emptyCache "k" (Val.vInt 3) NEVER_EXPIRE 0) "k" 0 = .ok NEVER_EXPIRE :=
  (C7_getTTL_spec (Set emptyCache "k" (Val.vInt 3) NEVER_EXPIRE 0) "k" 0).1
    ⟨Val.vInt 3, kNeverExpireMs⟩ (Set_never_find emptyCache "k" (Val.vInt 3) 0).2

/-- C10: every TTL of minus one millisecond or less is distinct from the
never-expire sentinel (duration -1 ns); `Set` with such a TTL returns no error
(it is total), places the key in the timed partition — not the permanent one —
with an expiry already in the past, so an immediate `Get` fails with NotFound
and `Exists` is false. -/
theorem C10_negative_ttl (c : Cache) (k : String) (v : Val) (ttlNs nowNs : Int)
    (httl : ttlNs ≤ -1000000) :
    ttlNs ≠ NEVER_EXPIRE ∧
    mfind (Set c k v ttlNs nowNs).persistItems k = none ∧
    mfind (Set c k v ttlNs nowNs).volatileItems k = some ⟨v, toMs (nowNs + ttlNs)⟩ ∧
    toMs (nowNs + ttlNs) < toMs nowNs ∧
    Get v.ty (Set c k v ttlNs nowNs) k nowNs = .error .notExists ∧
    Exists (Set c k v ttlNs nowNs) k nowNs = false := by
  have hts : ttlNs ≠ NEVER_EXPIRE := by
    unfold NEVER_EXPIRE
    omega
  have hexp : Item.expired ⟨v, toMs (nowNs + ttlNs)⟩ nowNs = true := by
    simp only [Item.expired, toMs, decide_eq_true_eq]
    omega
  refine ⟨hts, (Set_timed_find hts).1, (Set_timed_find hts).2,
    toMs_add_le_neg_ms httl, ?_, ?_⟩
  · simp [Get, Set_timed_shape hts, mfind_merase_self, mfind_minsert_self, hexp]
  · simp [Exists, Set_timed_shape hts, mfind_merase_self, mfind_minsert_self, hexp]

theorem C10_negative_ttl_witness :
    (-1000000 : Int) ≠ NEVER_EXPIRE ∧
    mfind (Set emptyCache "k" (Val.vBool true) (-1000000) 0).persistItems "k" = none ∧
    mfind (Set emptyCache "k" (Val.vBool true) (-1000000) 0).volatileItems "k" =
      some ⟨Val.vBool true, toMs (0 + -1000000)⟩ ∧
    toMs (0 + -1000000) < toMs 0 ∧
    Get (Val.vBool true).ty (Set emptyCache "k" (Val.vBool true) (-1000000) 0) "k" 0 =
      .error .notExists ∧
    Exists (Set emptyCache "k" (Val.vBool true) (-1000000) 0) "k" 0 = false :=
  C10_negative_ttl emptyCache "k" (Val.vBool true) (-1000000) 0 (by norm_num)

/-- C3: in every store state reachable through the public interface, a key is
present in at most one of the two partitions; in particular, after
`Set(k, v, NEVER)` followed by `Set(k, v2, finite ttl)` the key is absent from
the permanent partition and present in the timed partition with value `v2`,
and vice versa for the opposite order.  Each `Set` is a single transition of
the model, mirroring the single lock acquisition covering both the delete
from the other partition and the upsert. -/
theorem C3_partition_exclusivity (c : Cache) (hc : Reachable c) (k : String) :
    (¬ ((mfind c.persistItems k).isSome = true ∧
        (mfind c.volatileItems k).isSome = true)) ∧
    (∀ (v v2 : Val) (ttlNs nowNs nowNs2 : Int), ttlNs ≠ NEVER_EXPIRE →
      mfind (Set (Set c k v NEVER_EXPIRE nowNs) k v2 ttlNs nowNs2).persistItems k =
          none ∧
        (mfind (Set (Set c k v NEVER_EXPIRE nowNs) k v2 ttlNs nowNs2).volatileItems
            k).map Item.Object = some v2) ∧
    (∀ (v v2 : Val) (ttlNs nowNs nowNs2 : Int), ttlNs ≠ NEVER_EXPIRE →
      mfind (Set (Set c k v ttlNs nowNs) k v2 NEVER_EXPIRE nowNs2).volatileItems k =
          none ∧
        mfind (Set (Set c k v ttlNs nowNs) k v2 NEVER_EXPIRE nowNs2).persistItems k =
          some ⟨v2, kNeverExpireMs⟩) := by
  refine ⟨?_, ?_, ?_⟩
  · rintro ⟨hp, hv⟩
    obtain ⟨i1, hi1⟩ := Option.isSome_iff_exists.mp hp
    obtain ⟨i2, hi2⟩ := Option.isSome_iff_exists.mp hv
    exact (inv_reachable hc).2.2 k (mem_mkeys_of_mfind hi1) (mem_mkeys_of_mfind hi2)
  · intro v v2 ttlNs nowNs nowNs2 hts
    refine ⟨(Set_timed_find hts).1, ?_⟩
    rw [(Set_timed_find hts).2]
    rfl
  · intro v v2 ttlNs nowNs nowNs2 hts
    exact ⟨(Set_never_find _ k v2 nowNs2).1, (Set_never_find _ k v2 nowNs2).2⟩

theorem C3_partition_exclusivity_witness :
    ¬ ((mfind (NewFromItems []).persistItems "k").isSome = true ∧
       (mfind (NewFromItems []).volatileItems "k").isSome = true) :=
  (C3_partition_exclusivity (NewFromItems [])
    (Reachable.init [] (by simp [NodupKeys, mkeys])) "k").1

/-- C1 (code-bug exhibit): on a persist tick where the store is dirty, the
loop does copy the merged unexpired contents, clear the dirty flag and hand
that copy to Save — but on a tick where the store is NOT dirty, Save is still
called, and it is handed the empty map (which overwrites the durable
snapshot), contradicting the claim that no I/O happens on a clean tick.  The
state below is reached through the interface: one permanent `Set` followed by
one persist tick. -/
theorem C1_clean_tick_calls_save_with_empty_map :
    ((persistCall true (Set emptyCache "k" (Val.vStr "x") NEVER_EXPIRE 0) 0
        (fun _ => .ok ())).2 = some [("k", ⟨Val.vStr "x", kNeverExpireMs⟩)]) ∧
    ((persistCall true (Set emptyCache "k" (Val.vStr "x") NEVER_EXPIRE 0) 0
        (fun _ => .ok ())).1.changed = false) ∧
    ((persistCall true
        (persistCall true (Set emptyCache "k" (Val.vStr "x") NEVER_EXPIRE 0) 0
          (fun _ => .ok ())).1 0 (fun _ => .ok ())).2 = some []) :=
  ⟨rfl, rfl, rfl⟩

/-- C2 (code-bug exhibit): `DeleteKeys` removes an existing entry and
`DeleteFromMap` removes an element of a stored map (through the map
reference), yet neither sets the dirty flag, contradicting the dirty-iff-
mutated invariant the claim states.  Both start states are reached through
the interface (a `Set` followed by a persist tick that clears the flag). -/
theorem C2_deleteKeys_deleteFromMap_not_dirty :
    (mfind (DeleteKeys
        (persistCall true (Set emptyCache "k" (Val.vInt 1) NEVER_EXPIRE 0) 0
          (fun _ => .ok ())).1 ["k"]).persistItems "k" = none ∧
      (DeleteKeys
        (persistCall true (Set emptyCache "k" (Val.vInt 1) NEVER_EXPIRE 0) 0
          (fun _ => .ok ())).1 ["k"]).changed = false) ∧
    (mfind (DeleteFromMap
        (persistCall true (Set emptyCache "m" (Val.vMap [("a", 7)]) NEVER_EXPIRE 0) 0
          (fun _ => .ok ())).1 "m" "a" 0).1.persistItems "m" =
        some ⟨Val.vMap [], kNeverExpireMs⟩ ∧
      (DeleteFromMap
        (persistCall true (Set emptyCache "m" (Val.vMap [("a", 7)]) NEVER_EXPIRE 0) 0
          (fun _ => .ok ())).1 "m" "a" 0).1.changed = false) :=
  ⟨⟨rfl, rfl⟩, ⟨rfl, rfl⟩⟩

/-- C4: when the adapter's Save fails during a persist tick the outcome of
the call is discarded: the resulting state does not depend on the save
result, the dirty flag — cleared before the Save attempt — stays cleared on
failure, the next tick with no intervening mutation hands Save the empty map
(so the failed snapshot's contents are not re-saved until some later mutation
sets the dirty flag again), and the watcher loop keeps running after the
tick. -/
theorem C4_save_failure_swallowed (c : Cache) (nowNs nowNs2 : Int)
    (r1 r2 : SMap Item → Except String Unit) (h : c.changed = true) :
    persistCall true c nowNs r1 = persistCall true c nowNs r2 ∧
    (persistCall true c nowNs r1).1.changed = false ∧
    (persistCall true ((persistCall true c nowNs r1).1) nowNs2 r2).2 = some [] ∧
    (watcherStep true c .persistTick nowNs r1).2.2 = true := by
  refine ⟨rfl, ?_, ?_, ?_⟩
  · simp [persistCall, h]
  · simp [persistCall, h]
  · simp [watcherStep]

theorem C4_save_failure_swallowed_witness :
    persistCall true (Set emptyCache "k" (Val.vInt 1) NEVER_EXPIRE 0) 0
        (fun _ => .error "disk full") =
      persistCall true (Set emptyCache "k" (Val.vInt 1) NEVER_EXPIRE 0) 0
        (fun _ => .ok ()) ∧
    (persistCall true (Set emptyCache "k" (Val.vInt 1) NEVER_EXPIRE 0) 0
        (fun _ => .error "disk full")).1.changed = false ∧
    (persistCall true
        ((persistCall true (Set emptyCache "k" (Val.vInt 1) NEVER_EXPIRE 0) 0
          (fun _ => .error "disk full")).1) 0 (fun _ => .ok ())).2 = some [] ∧
    (watcherStep true (Set emptyCache "k" (Val.vInt 1) NEVER_EXPIRE 0) .persistTick 0
        (fun _ => .error "disk full")).2.2 = true :=
  C4_save_failure_swallowed (Set emptyCache "k" (Val.vInt 1) NEVER_EXPIRE 0) 0 0
    (fun _ => .error "disk full") (fun _ => .ok ()) rfl

/-- C6: constructing a cache with the default file persister when no snapshot
file exists (and the replacement file can be created) succeeds with an empty
cache rather than failing; and every entry of an existing snapshot that is
already expired at load time is dropped during Load, so in the newly
constructed cache the key is absent — `Exists` is false and `Get` fails with
NotFound at any later instant. -/
theorem C6_load_drops_expired (fileItems : SMap Item) (k : String) (i : Item)
    (loadNowNs nowNs : Int) (τ : Ty)
    (hnd : NodupKeys fileItems) (hfind : mfind fileItems k = some i)
    (hexp : i.expired loadNowNs = true) :
    (FilePersisterLoad (.errNotExist (.ok ())) loadNowNs = .ok [] ∧
      New (some (FilePersisterLoad (.errNotExist (.ok ())) loadNowNs)) =
        .ok emptyCache) ∧
    (New (some (FilePersisterLoad (.opened (.ok fileItems)) loadNowNs)) =
        .ok (NewFromItems (dropExpired fileItems loadNowNs)) ∧
      Exists (NewFromItems (dropExpired fileItems loadNowNs)) k nowNs = false ∧
      Get τ (NewFromItems (dropExpired fileItems loadNowNs)) k nowNs =
        .error .notExists) := by
  have hnotmem : k ∉ mkeys (dropExpired fileItems loadNowNs) := by
    unfold dropExpired
    exact not_mem_mkeys_filter hnd hfind (by simp [hexp])
  have hpn : mfind (NewFromItems (dropExpired fileItems loadNowNs)).persistItems k =
      none :=
    mfind_eq_none_iff.mpr (fun hmem => hnotmem (mkeys_NewFromItems_persist hmem))
  have hvn : mfind (NewFromItems (dropExpired fileItems loadNowNs)).volatileItems k =
      none :=
    mfind_eq_none_iff.mpr (fun hmem => hnotmem (mkeys_NewFromItems_volatile hmem))
  refine ⟨⟨rfl, rfl⟩, rfl, ?_, ?_⟩
  · simp [Exists, hpn, hvn]
  · simp [Get, hpn, hvn]

theorem C6_load_drops_expired_witness :
    (FilePersisterLoad (.errNotExist (.ok ())) 2000000 = .ok [] ∧
      New (some (FilePersisterLoad (.errNotExist (.ok ())) 2000000)) =
        .ok emptyCache) ∧
    (New (some (FilePersisterLoad
          (.opened (.ok [("k", ⟨Val.vInt 1, 0⟩)])) 2000000)) =
        .ok (NewFromItems (dropExpired [("k", ⟨Val.vInt 1, 0⟩)] 2000000)) ∧
      Exists (NewFromItems (dropExpired [("k", ⟨Val.vInt 1, 0⟩)] 2000000)) "k" 0 =
        false ∧
      Get Ty.int (NewFromItems (dropExpired [("k", ⟨Val.vInt 1, 0⟩)] 2000000)) "k" 0 =
        .error .notExists) :=
  C6_load_drops_expired [("k", ⟨Val.vInt 1, 0⟩)] "k" ⟨Val.vInt 1, 0⟩ 2000000 0 Ty.int
    (by simp [NodupKeys, mkeys]) rfl rfl

/-- C9 counterexample: the claim says a failure to decode an existing
snapshot file surfaces as a load failure aborting construction, but on a gob
decode error the default file persister discards the error and returns
success with the (empty) partially decoded mapping, and `New` then succeeds
with an empty cache. -/
theorem C9_decode_error_swallowed_counterexample :
    FilePersisterLoad (.opened (.err [])) 0 = .ok [] ∧
      New (some (FilePersisterLoad (.opened (.err [])) 0)) = .ok emptyCache :=
  ⟨rfl, rfl⟩

/-- C9 (amended): whenever the configured adapter's Load returns an error,
`New` returns that error and no cache; with the default file persister, a
failure to open an existing snapshot file — or to create a missing one —
surfaces as such a load failure, while an error raised during gob decoding of
an opened file is discarded: Load then succeeds with the unexpired part of
whatever was decoded before the failure. -/
theorem C9_load_failure_aborts (e : String) (nowNs : Int)
    (leftoverItems : SMap Item) :
    New (some (.error e)) = .error e ∧
    FilePersisterLoad (.errOther e) nowNs = .error e ∧
    FilePersisterLoad (.errNotExist (.error e)) nowNs = .error e ∧
    New (some (FilePersisterLoad (.errOther e) nowNs)) = .error e ∧
    FilePersisterLoad (.opened (.err leftoverItems)) nowNs =
      .ok (dropExpired leftoverItems nowNs) :=
  ⟨rfl, rfl, rfl, rfl, rfl⟩

end GCache
